import Mathlib

/-!
Shallow embedding of the command-interpretation and category-query core of
the dsns-timeline-bot repository (src/command_router.py, src/database.py,
src/data_service.py), together with theorems settling the frozen claims.

Modelling conventions:
* Python strings are Lean `String`s (sequences of Unicode code points, as in
  Python 3); `len` is `String.length`, slicing counts code points.
* `str.lower()` is modelled by `Char.toLower` per character (ASCII case
  folding; no claim depends on non-ASCII case folding).
* The `\d` regex class and `str.strip()` / `split()` whitespace are modelled
  by ASCII digits and a whitespace set containing the ASCII whitespace
  characters plus the ideographic space; no claim depends on the more exotic
  Unicode members of those classes.
* SQLite `LOWER(REPLACE(categories,'-','')) LIKE '%pat%'` is modelled as
  substring containment of `pat` in the hyphen-stripped lower-cased
  categories string (the query tags contain no `%`/`_` wildcards in any
  claim), and a `SELECT` without `ORDER BY` returns rows in table order.
-/

namespace DsnsBot

/-! ### Models of Python string primitives -/

/-- Whitespace as recognised by Python `str.strip()` / `str.split()` and the
regex class `\s` (ASCII part plus the ideographic space U+3000). -/
def isPySpace (c : Char) : Bool :=
  c = ' ' || c = '\t' || c = '\n' || c = '\r' || c = '\x0b' || c = '\x0c' || c = '　'

/-- Python `str.lower()`, per character (ASCII case folding). -/
def pyLower (c : Char) : Char := c.toLower

/-- Python `content.lower()`. -/
def pyLowerStr (s : String) : String := ⟨s.data.map pyLower⟩

def pyStripL (l : List Char) : List Char :=
  ((l.dropWhile isPySpace).reverse.dropWhile isPySpace).reverse

/-- Python `s.strip()`. -/
def pyStrip (s : String) : String := ⟨pyStripL s.data⟩

/-- Does `needle` occur as a contiguous sublist of `hay`? -/
def hasSubL (hay needle : List Char) : Bool :=
  match hay with
  | [] => needle.isEmpty
  | _ :: rest => needle.isPrefixOf hay || hasSubL rest needle

/-- Python `sub in hay` (substring containment). -/
def hasSub (hay sub : String) : Bool := hasSubL hay.data sub.data

/-- Python `c in s` for a single character. -/
def hasChar (s : String) (c : Char) : Bool := s.data.contains c

/-- Python `s.startswith(pre)`. -/
def pyStartsWith (s pre : String) : Bool := pre.data.isPrefixOf s.data

/-- Python `s.replace(needle, '')`: remove every (left-to-right,
non-overlapping) occurrence of `needle`. The `fuel` argument makes the
recursion structural (so that it reduces in the kernel); it only decreases
when the input list shrinks, so with `fuel = l.length` it never runs out. -/
def replaceAllAux (needle : List Char) : Nat → List Char → List Char
  | 0, l => l
  | _, [] => []
  | fuel + 1, c :: rest =>
    if needle ≠ [] ∧ needle.isPrefixOf (c :: rest) = true then
      replaceAllAux needle fuel ((c :: rest).drop needle.length)
    else
      c :: replaceAllAux needle fuel rest

def replaceAllL (needle : List Char) (l : List Char) : List Char :=
  replaceAllAux needle l.length l

/-- Python `s.replace(pat, '')`. -/
def pyReplaceAll (s pat : String) : String := ⟨replaceAllL pat.data s.data⟩

/-- Remove only the first occurrence of `needle` (what the spec claims the
search branch does; the source in fact removes every occurrence). -/
def removeFirstL (needle : List Char) : List Char → List Char
  | [] => []
  | c :: rest =>
    if needle ≠ [] ∧ needle.isPrefixOf (c :: rest) = true then
      (c :: rest).drop needle.length
    else
      c :: removeFirstL needle rest

/-- Remove only the first occurrence of `pat` from `s`. -/
def removeFirstOccurrence (s pat : String) : String := ⟨removeFirstL pat.data s.data⟩

/-- Python `s.split(sep)` (keeps empty pieces; `"".split(sep) = [""]`). -/
def splitAllL (sep : Char) : List Char → List (List Char)
  | [] => [[]]
  | c :: rest =>
    match splitAllL sep rest with
    | [] => [[]]
    | h :: t => if c = sep then [] :: h :: t else (c :: h) :: t

/-- Python `s.split(sep)` on strings. -/
def pySplit (s : String) (sep : Char) : List String := (splitAllL sep s.data).map fun l => ⟨l⟩

/-- Python `s.split(sep, 1)`: the pieces before and after the first `sep`
(whole input and `[]` when `sep` is absent). -/
def splitOnceL (sep : Char) : List Char → List Char × List Char
  | [] => ([], [])
  | c :: rest =>
    if c = sep then ([], rest)
    else
      let p := splitOnceL sep rest
      (c :: p.1, p.2)

/-- Python `s.split()` (no argument): split on runs of whitespace, dropping
empty pieces; `acc` accumulates the current token reversed. -/
def pySplitWsAux : List Char → List Char → List (List Char)
  | [], acc => if acc.isEmpty then [] else [acc.reverse]
  | c :: rest, acc =>
    if isPySpace c then
      if acc.isEmpty then pySplitWsAux rest []
      else acc.reverse :: pySplitWsAux rest []
    else pySplitWsAux rest (c :: acc)

def pySplitWsL (l : List Char) : List (List Char) := pySplitWsAux l []

/-- Python `s.split()` on strings. -/
def pySplitWs (s : String) : List String := (pySplitWsL s.data).map fun l => ⟨l⟩

/-- `cat.replace('-', '').lower()` — the tag normalization used throughout
src/database.py. -/
def normalizeTag (s : String) : String := ⟨(s.data.filter (fun c => c != '-')).map pyLower⟩

/-! ### Category expression parser (src/command_router.py lines 403-437 and
the three verbatim copies of the same splitting code at lines 141-159,
296-314 and 363-383) -/

/-- `[cat.strip() for cat in include_part.split('+') if cat.strip()]` -/
def parseIncludeSegment (seg : String) : List String :=
  ((pySplit seg '+').map pyStrip).filter (fun t => t != "")

/-- The exclude-segment splitting: split on `+`; a piece containing `-` is
split again on `-` with trimmed non-empty sub-pieces flattened in; a piece
without `-` is appended trimmed, with no emptiness check
(src/command_router.py lines 416-425). -/
def parseExcludeSegment (seg : String) : List String :=
  if seg = "" then []
  else
    (pySplit seg '+').flatMap fun part =>
      if hasChar part '-' then
        ((pySplit part '-').map pyStrip).filter (fun t => t != "")
      else
        [pyStrip part]

/-- The category expression parser: split on the first `-` into include and
exclude segments (src/command_router.py lines 409-425). -/
def parseCategoryExpr (expr : String) : List String × List String :=
  let segs :=
    if hasChar expr '-' then
      let p := splitOnceL '-' expr.data
      ((⟨p.1⟩ : String), (⟨p.2⟩ : String))
    else
      (expr, "")
  (parseIncludeSegment segs.1, parseExcludeSegment segs.2)

/-! ### Events and the tag-match predicate (src/database.py) -/

/-- The fields of `TimelineEvent` that the claims touch
(src/database.py lines 24-38). -/
structure TimelineEvent where
  year : Int
  month : Nat
  day : Nat
  content : String
  categories : String
deriving DecidableEq

/-- `[cat.strip() for cat in event.categories.split()]`, guarded by
`if event.categories:` (src/database.py lines 471-474). -/
def eventCategoriesOf (ev : TimelineEvent) : List String :=
  if ev.categories = "" then [] else (pySplitWs ev.categories).map pyStrip

/-- `[cat.replace('-', '').lower() for cat in event_categories]`
(src/database.py lines 478 and 484). -/
def eventCategoriesNormalized (ev : TimelineEvent) : List String :=
  (eventCategoriesOf ev).map normalizeTag

/-- `[cat.replace('-','').lower() for cat in cats if cat.strip()]` — the
query-tag normalization of `_check_categories` and
`get_cooccurring_categories`. -/
def normalizeQueryTags (cats : List String) : List String :=
  (cats.filter (fun c => pyStrip c != "")).map normalizeTag

/-- `TimelineDatabase._check_categories` (src/database.py lines 451-492). -/
def _check_categories (ev : TimelineEvent) (categories : List String)
    (excludeCategories : List String) : Bool :=
  let normalizedCategories := normalizeQueryTags categories
  let normalizedExclude := normalizeQueryTags excludeCategories
  let eventCatsNormalized := eventCategoriesNormalized ev
  if normalizedCategories ≠ [] ∧
      ¬ (normalizedCategories.all fun c => eventCatsNormalized.contains c) then
    false
  else if normalizedExclude ≠ [] ∧
      (normalizedExclude.any fun c => eventCatsNormalized.contains c) then
    false
  else
    true

/-! ### Category queries over the event table (src/database.py) -/

/-- `LOWER(REPLACE(categories, '-', ''))` — SQLite folds ASCII case only,
which `pyLower` models exactly. -/
def sqlNormCats (s : String) : String := ⟨(s.data.filter (fun c => c != '-')).map pyLower⟩

/-- The SQL `WHERE` clause of `get_events_by_categories` /
`get_cooccurring_categories`: every include tag `LIKE '%cat%'` and every
exclude tag `NOT LIKE '%cat%'` against the normalized categories string. -/
def likeWhere (normInc normExc : List String) (ev : TimelineEvent) : Bool :=
  (normInc.all fun cat => hasSub (sqlNormCats ev.categories) cat) &&
  (normExc.all fun cat => !(hasSub (sqlNormCats ev.categories) cat))

/-- Insert keeping existing elements that satisfy `pass_ x` in front:
used to model Python's stable `sorted`. -/
def stableInsert {α : Type} (pass_ : α → α → Bool) (x : α) : List α → List α
  | [] => [x]
  | y :: ys => if pass_ y x then y :: stableInsert pass_ x ys else x :: y :: ys

/-- Stable sort by repeated insertion: `pass_ y x = true` means the already
placed `y` stays before the newcomer `x` (so ties keep first-seen order,
exactly like Python's stable `sorted`). -/
def stableSort {α : Type} (pass_ : α → α → Bool) (l : List α) : List α :=
  l.foldl (fun acc x => stableInsert pass_ x acc) []

/-- Ascending `ORDER BY year, month, day` comparison. -/
def dateKeyPass (a b : TimelineEvent) : Bool :=
  if a.year ≠ b.year then a.year < b.year
  else if a.month ≠ b.month then a.month < b.month
  else a.day ≤ b.day

/-- `[c.strip() for c in (ev.categories or '').split()]` — the raw
(unnormalized) tags used by the strict post-filter of
`get_events_by_categories` (src/database.py lines 437 and 444). -/
def rawStrippedTags (ev : TimelineEvent) : List String :=
  (pySplitWs ev.categories).map pyStrip

/-- `TimelineDatabase.get_events_by_categories`
(src/database.py lines 368-449), over an explicit event table. -/
def get_events_by_categories (table : List TimelineEvent) (categories : List String)
    (excludeCategories : List String) (limit : Nat) : List TimelineEvent :=
  let normalizedCategories := categories.map normalizeTag
  let normalizedExclude := excludeCategories.map normalizeTag
  if normalizedCategories = [] ∧ normalizedExclude = [] then []
  else
    let rows := (stableSort dateKeyPass
      (table.filter (likeWhere normalizedCategories normalizedExclude))).take limit
    let rows2 :=
      if normalizedCategories ≠ [] then
        rows.filter fun ev =>
          normalizedCategories.all fun cat => (rawStrippedTags ev).contains cat
      else rows
    if normalizedExclude ≠ [] then
      rows2.filter fun ev =>
        !(normalizedExclude.any fun cat => (rawStrippedTags ev).contains cat)
    else rows2

/-- `cooccur_counts[cat] = cooccur_counts.get(cat, 0) + 1` on an
insertion-ordered association list (Python dict preserves insertion order). -/
def bump (m : List (String × Nat)) (k : String) : List (String × Nat) :=
  match m with
  | [] => [(k, 1)]
  | (k₁, v) :: rest => if k₁ = k then (k₁, v + 1) :: rest else (k₁, v) :: bump rest k

/-- The rows selected by the SQL query of `get_cooccurring_categories`
(no strict post-filter there, unlike `get_events_by_categories`). -/
def cooccurSelected (table : List TimelineEvent) (normInc normExc : List String) :
    List TimelineEvent :=
  table.filter (likeWhere normInc normExc)

/-- The stream of counted tags of `get_cooccurring_categories`: for each
selected row with a non-empty categories string, its normalized tags that
are in neither query set, in row-major order (src/database.py 1044-1050). -/
def cooccurContrib (table : List TimelineEvent) (normInc normExc : List String) :
    List String :=
  (cooccurSelected table normInc normExc).flatMap fun ev =>
    if ev.categories ≠ "" then
      ((pySplitWs ev.categories).map normalizeTag).filter
        (fun cat => !(normInc.contains cat) && !(normExc.contains cat))
    else []

/-- `sorted(counts.items(), key=lambda x: x[1], reverse=True)`: stable
descending sort by count. -/
def sortByCountDesc (l : List (String × Nat)) : List (String × Nat) :=
  stableSort (fun q p => q.2 ≥ p.2) l

/-- `TimelineDatabase.get_cooccurring_categories`
(src/database.py lines 1004-1053), over an explicit event table. -/
def get_cooccurring_categories (table : List TimelineEvent) (categories : List String)
    (excludeCategories : List String) (limit : Nat) : List (String × Nat) :=
  let normalizedCategories := normalizeQueryTags categories
  let normalizedExclude := normalizeQueryTags excludeCategories
  if normalizedCategories = [] ∧ normalizedExclude = [] then []
  else
    let contrib := cooccurContrib table normalizedCategories normalizedExclude
    (sortByCountDesc (contrib.foldl bump [])).take limit

/-! ### Command dictionaries (src/command_router.py) -/

/-- The command dictionaries returned by `CommandRouter.parse_command`, as a
closed union. The `type` field values are those of the source
(`CommandTypes.*` plus the literal `'category'`); `search` is the plain
search dictionary and `searchCat` the search dictionary that carries
`categories` / `exclude_categories` keys. Sub-types are kept as the source's
literal strings (`'統計'` = Statistics, `'代表'` = Representative,
`'概要'` = Summary). -/
inductive Cmd where
  | today : Cmd
  | date (month day : Nat) : Cmd
  | search (query : String) : Cmd
  | searchCat (query : String) (categories excludeCategories : List String) : Cmd
  | help : Cmd
  | status (subCommand : Option String) : Cmd
  | decade (subType : String) (startYear endYear : Nat) (decadeName : String)
      (categories excludeCategories : List String) : Cmd
  | category (subType : String) (categories excludeCategories : List String) : Cmd
deriving DecidableEq

/-- The `'type'` entry of the returned dictionary. -/
def Cmd.type : Cmd → String
  | .today => "today"
  | .date _ _ => "date"
  | .search _ => "search"
  | .searchCat _ _ _ => "search"
  | .help => "help"
  | .status _ => "status"
  | .decade _ _ _ _ _ _ => "decade"
  | .category _ _ _ => "category"

/-! ### Regular-expression models

Each regex of the source is modelled as a dedicated leftmost-match searcher
with the backtracking behavior of Python `re.search` for that pattern.
`\d` is modelled as an ASCII digit. -/

def isPyDigit (c : Char) : Bool := c.isDigit

def digitVal (c : Char) : Nat := c.toNat - '0'.toNat

/-- Generic leftmost search: try the head-anchored matcher at every start
position, left to right. -/
def reSearch {α : Type} (f : List Char → Option α) : List Char → Option α
  | [] => none
  | c :: rest =>
    match f (c :: rest) with
    | some r => some r
    | none => reSearch f rest

/-- Head-anchored `(\d{1,2})日` (greedy, two digits preferred). -/
def matchDayAt (l : List Char) : Option Nat :=
  match l with
  | a :: b :: rest =>
    if isPyDigit a ∧ isPyDigit b ∧ rest.head? = some '日' then
      some (10 * digitVal a + digitVal b)
    else if isPyDigit a ∧ b = '日' then
      some (digitVal a)
    else none
  | _ => none

/-- Head-anchored `(\d{1,2})月(\d{1,2})日`. When two digits are followed by
anything but `月` the one-digit alternative needs the second digit to be
`月`, which is impossible, so no backtracking survives there. -/
def matchMonthDayAt (l : List Char) : Option (Nat × Nat) :=
  match l with
  | a :: b :: rest =>
    if isPyDigit a then
      if isPyDigit b then
        match rest with
        | '月' :: rest₂ => (matchDayAt rest₂).map fun d => (10 * digitVal a + digitVal b, d)
        | _ => none
      else if b = '月' then
        (matchDayAt rest).map fun d => (digitVal a, d)
      else none
    else none
  | _ => none

/-- `re.search(r'(\d{1,2})月(\d{1,2})日', content)` returning
`(int(group(1)), int(group(2)))`. -/
def searchMonthDay (l : List Char) : Option (Nat × Nat) := reSearch matchMonthDayAt l

/-- Head-anchored `(\d{4})年代`. -/
def match4NendaiAt (l : List Char) : Option Nat :=
  match l with
  | a :: b :: c :: d :: e :: f :: _ =>
    if isPyDigit a ∧ isPyDigit b ∧ isPyDigit c ∧ isPyDigit d ∧ e = '年' ∧ f = '代' then
      some (1000 * digitVal a + 100 * digitVal b + 10 * digitVal c + digitVal d)
    else none
  | _ => none

/-- Head-anchored `(\d{2})年代`. -/
def match2NendaiAt (l : List Char) : Option Nat :=
  match l with
  | a :: b :: e :: f :: _ =>
    if isPyDigit a ∧ isPyDigit b ∧ e = '年' ∧ f = '代' then
      some (10 * digitVal a + digitVal b)
    else none
  | _ => none

/-- Head-anchored `(\d{4})年から(\d{4})年`. -/
def matchRangeAt (l : List Char) : Option (Nat × Nat) :=
  match l with
  | a :: b :: c :: d :: e :: f :: g :: h :: i :: j :: k :: m :: _ =>
    if isPyDigit a ∧ isPyDigit b ∧ isPyDigit c ∧ isPyDigit d ∧
        e = '年' ∧ f = 'か' ∧ g = 'ら' ∧
        isPyDigit h ∧ isPyDigit i ∧ isPyDigit j ∧ isPyDigit k ∧ m = '年' then
      some (1000 * digitVal a + 100 * digitVal b + 10 * digitVal c + digitVal d,
            1000 * digitVal h + 100 * digitVal i + 10 * digitVal j + digitVal k)
    else none
  | _ => none

/-- The `\w` class of Python `re` on a `str` pattern: ASCII word characters,
with non-ASCII word characters approximated as any non-ASCII non-space
character (no claim exercises non-ASCII punctuation inside `[\w\-\+]+`). -/
def isWordChar (c : Char) : Bool :=
  c.isAlphanum || c = '_' || (c.toNat ≥ 0x80 && !isPySpace c)

def isWordPM (c : Char) : Bool := isWordChar c || c = '-' || c = '+'

/-- Head-anchored `LIT\s+([\w\-\+]+)` for a literal `lit` (the
`カテゴリ\s+([\w\-\+]+)` and `カテゴリ分析\s+([\w\-\+]+)` patterns). The
character classes are pairwise disjoint, so greedy matching needs no
backtracking. -/
def matchKwExprAt (lit : List Char) (l : List Char) : Option String :=
  if lit.isPrefixOf l then
    let rest := l.drop lit.length
    let ws := rest.takeWhile isPySpace
    if ws.isEmpty then none
    else
      let tok := (rest.drop ws.length).takeWhile isWordPM
      if tok.isEmpty then none else some ⟨tok⟩
  else none

/-- `re.search(r'LIT\s+([\w\-\+]+)', content)` returning `group(1)`. -/
def searchKwExpr (lit : String) (content : String) : Option String :=
  reSearch (matchKwExprAt lit.data) content.data

/-! The combined pattern
`(?:検索|けんさく|search|探して|さがして)\s*([^\s]+)\s*カテゴリ\s*(.+)`
(src/command_router.py line 132). Only the `[^\s]+` group and the final
`\s*` can backtrack usefully: the `\s*` runs followed by non-space
requirements are forced to their maximal extent, and after giving back
characters from the `[^\s]+` run the following `\s*` must match empty. -/

/-- `\s*(.+)` at the end of the pattern: greedy `\s*` backtracks until `.`
(any character except newline) can match at least once; the group is then
the maximal newline-free run. Tries `p` consumed whitespace characters,
counting down. -/
def dotPlusTry (l : List Char) : Nat → Option (List Char)
  | 0 =>
    match l with
    | c :: _ => if c ≠ '\n' then some (l.takeWhile fun d => d != '\n') else none
    | [] => none
  | p + 1 =>
    (match l.drop (p + 1) with
     | c :: _ => if c ≠ '\n' then some ((l.drop (p + 1)).takeWhile fun d => d != '\n') else none
     | [] => none)
    <|> dotPlusTry l p

/-- `\s*(.+)` anchored at `l`. -/
def dotPlus (l : List Char) : Option (List Char) :=
  dotPlusTry l (l.takeWhile isPySpace).length

/-- After group 1 has taken `j` characters of the non-space run: require
`\s*カテゴリ` then `\s*(.+)`; backtrack `j` downward (greedy group 1). -/
def searchCatTailTry (run afterRun : List Char) : Nat → Option (List Char × List Char)
  | 0 => none
  | j + 1 =>
    (let g₁ := run.take (j + 1)
     let rest := (run.drop (j + 1)) ++ afterRun
     let rest₂ := rest.dropWhile isPySpace
     if ("カテゴリ".data).isPrefixOf rest₂ then
       (dotPlus (rest₂.drop ("カテゴリ".data).length)).map fun g₂ => (g₁, g₂)
     else none)
    <|> searchCatTailTry run afterRun j

/-- `\s*([^\s]+)\s*カテゴリ\s*(.+)` anchored right after the keyword. -/
def searchCatAfterKw (l : List Char) : Option (List Char × List Char) :=
  let l₂ := l.dropWhile isPySpace
  let run := l₂.takeWhile fun c => !isPySpace c
  if run.isEmpty then none
  else searchCatTailTry run (l₂.drop run.length) run.length

/-- The keyword alternation of the combined pattern, tried in source order. -/
def searchCatAtKw : List String → List Char → Option (List Char × List Char)
  | [], _ => none
  | kw :: rest, l =>
    (if kw.data.isPrefixOf l then searchCatAfterKw (l.drop kw.data.length) else none)
    <|> searchCatAtKw rest l

/-- `re.search` of the combined search+category pattern, returning
`(group(1), group(2))`. -/
def searchCatSearch (content : String) : Option (String × String) :=
  (reSearch (searchCatAtKw ["検索", "けんさく", "search", "探して", "さがして"]) content.data).map
    fun p => ((⟨p.1⟩ : String), (⟨p.2⟩ : String))

/-! ### parse_decade_command (src/command_router.py lines 199-329) -/

/-- The `decade_strings` table, in source (insertion) order
(src/command_router.py lines 217-239). -/
def decadeStrings : List (String × Nat × Nat) :=
  [("1920年代", 1920, 1929), ("30年代", 1930, 1939), ("1930年代", 1930, 1939),
   ("40年代", 1940, 1949), ("1940年代", 1940, 1949), ("50年代", 1950, 1959),
   ("1950年代", 1950, 1959), ("60年代", 1960, 1969), ("1960年代", 1960, 1969),
   ("70年代", 1970, 1979), ("1970年代", 1970, 1979), ("80年代", 1980, 1989),
   ("1980年代", 1980, 1989), ("90年代", 1990, 1999), ("1990年代", 1990, 1999),
   ("ゼロ年代", 2000, 2009), ("零年代", 2000, 2009), ("2000年代", 2000, 2009),
   ("10年代", 2010, 2019), ("2010年代", 2010, 2019), ("テン年代", 2010, 2019),
   ("2020年代", 2020, 2029)]

/-- Decade recognition: the string table first, then the three regex
patterns in source order. -/
def decadeYears (content : String) : Option (Nat × Nat) :=
  match decadeStrings.find? fun e => hasSub content e.1 with
  | some e => some e.2
  | none =>
    match reSearch match4NendaiAt content.data with
    | some y => some (y, y + 9)
    | none =>
      match reSearch match2NendaiAt content.data with
      | some n => some (1900 + n, 1900 + n + 9)
      | none => reSearch matchRangeAt content.data

/-- The `sub_commands` keyword table, in source order
(src/command_router.py lines 277-281). -/
def subCommandKeywords : List (String × List String) :=
  [("統計", ["統計", "とうけい", "stats", "statistics"]),
   ("代表", ["代表", "だいひょう", "重要", "じゅうよう", "representative"]),
   ("概要", ["概要", "がいよう", "まとめ", "summary", "overview"])]

/-- Sub-command detection with default `'統計'` (keywords are checked
against the original, non-lowered content). -/
def decadeSubCommand (content : String) : String :=
  match subCommandKeywords.find? fun e => e.2.any fun kw => hasSub content kw with
  | some e => e.1
  | none => "統計"

/-- `CommandRouter._get_decade_name` (src/command_router.py lines 331-335). -/
def _get_decade_name (startYear : Nat) : String :=
  toString (startYear / 10 * 10) ++ "年代"

/-- The optional embedded `カテゴリ <expr>` clause of a decade command
(src/command_router.py lines 294-314). -/
def decadeCategoryClause (content : String) : List String × List String :=
  match searchKwExpr "カテゴリ" content with
  | some expr => parseCategoryExpr expr
  | none => ([], [])

/-- `CommandRouter.parse_decade_command` (src/command_router.py 199-329). -/
def parse_decade_command (content : String) : Option Cmd :=
  match decadeYears content with
  | none => none
  | some (s, e) =>
    let ce := decadeCategoryClause content
    some (.decade (decadeSubCommand content) s e (_get_decade_name s) ce.1 ce.2)

/-! ### parse_category_command (src/command_router.py lines 337-442) -/

def categoryStatsKws : List String :=
  ["カテゴリ統計", "カテゴリ 統計", "category stats", "category statistics"]

def categoryListKws : List String :=
  ["カテゴリ一覧", "カテゴリ 一覧", "category list", "categories"]

/-- `CommandRouter.parse_category_command` (src/command_router.py 337-442).
All keyword checks are against the original content (the computed
`content_lower` is unused in the source). -/
def parse_category_command (content : String) : Option Cmd :=
  if categoryStatsKws.any fun kw => hasSub content kw then
    some (.category "statistics" [] [])
  else
    match searchKwExpr "カテゴリ分析" content with
    | some expr =>
      let ce := parseCategoryExpr expr
      some (.category "analysis" ce.1 ce.2)
    | none =>
      if categoryListKws.any fun kw => hasSub content kw then
        some (.category "list" [] [])
      else
        match searchKwExpr "カテゴリ" content with
        | some expr =>
          let ce := parseCategoryExpr expr
          if ce.1 = [] ∧ ce.2 = [] then none
          else some (.category "filter" ce.1 ce.2)
        | none => none

/-! ### parse_command (src/command_router.py lines 58-197) -/

def helpKeywords : List String := ["help", "ヘルプ", "使い方", "つかいかた", "コマンド"]

def statusKeywords : List String := ["status", "ステータス", "状態", "じょうたい"]

def todayKeywords : List String := ["今日", "きょう", "today"]

def searchKeywordsList : List String := ["検索", "けんさく", "search", "探して", "さがして"]

/-- Status sub-command detection (src/command_router.py lines 109-115). -/
def statusSubCommand (content contentLower : String) : Option String :=
  if hasSub content "サーバー" || hasSub contentLower "server" then some "server"
  else if hasSub content "ボット" || hasSub contentLower "bot" then some "bot"
  else if hasSub content "年表" || hasSub contentLower "timeline" then some "timeline"
  else none

/-- The `for keyword in search_keywords` loop (src/command_router.py
lines 124-177). An iteration whose keyword occurs continues to the next
keyword when the text starts with `カテゴリ`, or when the plain-search
query is empty after stripping the keyword. -/
def searchLoop (content contentLower : String) : List String → Option Cmd
  | [] => none
  | kw :: rest =>
    if hasSub contentLower kw then
      if pyStartsWith contentLower "カテゴリ" then searchLoop content contentLower rest
      else
        match searchCatSearch content with
        | some (g₁, g₂) =>
          let ce := parseCategoryExpr (pyStrip g₂)
          some (.searchCat (pyStrip g₁) ce.1 ce.2)
        | none =>
          let q := pyStrip (pyReplaceAll content kw)
          if q ≠ "" then some (.search q) else searchLoop content contentLower rest
    else searchLoop content contentLower rest

/-- The cascade below the date rule (src/command_router.py lines 98-192). -/
def parseCommandAfterDate (content contentLower : String) : Cmd :=
  if helpKeywords.any fun kw => hasSub contentLower kw then .help
  else if (statusKeywords.any fun kw => hasSub contentLower kw) ∧
      ¬ (pyStartsWith contentLower "カテゴリ" = true) then
    .status (statusSubCommand content contentLower)
  else
    match searchLoop content contentLower searchKeywordsList with
    | some cmd => cmd
    | none =>
      match parse_category_command content with
      | some cmd => cmd
      | none =>
        if todayKeywords.any fun kw => hasSub contentLower kw then .today
        else .help

/-- The cascade of `parse_command` after bot-name removal: decade, then
date with range validation (an invalid match falls through to the later
rules), then the keyword rules. -/
def parseCommandCore (content : String) : Cmd :=
  let contentLower := pyLowerStr content
  match parse_decade_command content with
  | some cmd => cmd
  | none =>
    match searchMonthDay content.data with
    | some (m, d) =>
      if 1 ≤ m ∧ m ≤ 12 ∧ 1 ≤ d ∧ d ≤ 31 then .date m d
      else parseCommandAfterDate content contentLower
    | none => parseCommandAfterDate content contentLower

/-- `content.replace('@'+bot_username, '').strip()` when a (truthy)
bot user name is given (src/command_router.py lines 73-74). -/
def stripBotName (content : String) (botUsername : Option String) : String :=
  match botUsername with
  | some b => if b ≠ "" then pyStrip (pyReplaceAll content ("@" ++ b)) else content
  | none => content

/-- `CommandRouter.parse_command` (src/command_router.py lines 58-197).
Every operation of the source's `try` body is total, so the
`except`/`CommandParseError` path is unreachable and the model is a total
function. -/
def parse_command (content : String) (botUsername : Option String) : Cmd :=
  parseCommandCore (stripBotName content botUsername)

/-! ### Bounded message assembler
(`TimelineDataService._truncate_message_with_events`,
src/data_service.py lines 405-471) -/

/-- `f"（他に{remaining}件あります）"`. -/
def noticeLine (remaining : Nat) : String := "（他に" ++ toString remaining ++ "件あります）"

/-- The `for event in events` loop (src/data_service.py lines 438-450):
returns the accumulated parts list and the number of displayed events. -/
def assembleLoop {α : Type} (fmt : α → String) (maxChars : Nat) :
    List α → List String → Nat → Nat → List String × Nat
  | [], parts, _, disp => (parts, disp)
  | e :: rest, parts, cur, disp =>
    let s := fmt e
    let ec := s.length + 1
    if cur + ec > maxChars then (parts, disp)
    else assembleLoop fmt maxChars rest (parts ++ [s, ""]) (cur + ec) (disp + 1)

/-- `sum(len(part) + 1 for part in message_parts)` over the header. -/
def headerChars (headerParts : List String) : Nat :=
  (headerParts.map fun p => p.length + 1).sum

/-- Displayed-event count of the loop. -/
def displayedCount {α : Type} (events : List α) (fmt : α → String)
    (headerParts : List String) (maxChars : Nat) : Nat :=
  (assembleLoop fmt maxChars events headerParts (headerChars headerParts) 0).2

/-- The parts list after the loop, trailing-blank removal and footer append
(src/data_service.py lines 438-456); only used on non-empty `events`. -/
def assembledPartsPre {α : Type} (events : List α) (fmt : α → String)
    (headerParts footerParts : List String) (maxChars : Nat) : List String :=
  let r := assembleLoop fmt maxChars events headerParts (headerChars headerParts) 0
  (if r.1 ≠ [] ∧ r.1.getLast? = some "" then r.1.dropLast else r.1) ++ footerParts

/-- The parts list including the remainder notice when some events were
omitted (src/data_service.py lines 459-462). -/
def assembledParts {α : Type} (events : List α) (fmt : α → String)
    (headerParts footerParts : List String) (maxChars : Nat) : List String :=
  if displayedCount events fmt headerParts maxChars < events.length then
    assembledPartsPre events fmt headerParts footerParts maxChars ++
      ["", noticeLine (events.length - displayedCount events fmt headerParts maxChars)]
  else
    assembledPartsPre events fmt headerParts footerParts maxChars

/-- `TimelineDataService._truncate_message_with_events`
(src/data_service.py lines 405-471). The final hard truncation
`result[:max_chars-3] + "..."` is only applied on the non-empty-events
path; `maxChars ≥ 3` keeps the Python slice index non-negative. -/
def _truncate_message_with_events {α : Type} (events : List α) (fmt : α → String)
    (headerParts footerParts : List String) (maxChars : Nat) : String :=
  match events with
  | [] => String.intercalate "\n" (headerParts ++ footerParts)
  | _ :: _ =>
    let result := String.intercalate "\n" (assembledParts events fmt headerParts footerParts maxChars)
    if result.length > maxChars then (⟨result.data.take (maxChars - 3)⟩ : String) ++ "..."
    else result

/-! ### Helper lemmas -/

theorem splitOnceL_append (sep : Char) (pre post : List Char) (h : sep ∉ pre) :
    splitOnceL sep (pre ++ sep :: post) = (pre, post) := by
  induction pre with
  | nil => simp [splitOnceL]
  | cons c cs ih =>
    have hc : c ≠ sep := fun hcs => h (hcs ▸ List.mem_cons_self c cs)
    have ih' := ih fun hm => h (List.mem_cons_of_mem c hm)
    simp [splitOnceL, hc, ih']

theorem hasChar_of_mem {s : String} {c : Char} (h : c ∈ s.data) : hasChar s c = true := by
  simpa [hasChar, List.contains] using List.elem_iff.mpr h

theorem hasChar_eq_false {s : String} {c : Char} (h : c ∉ s.data) : hasChar s c = false := by
  simp only [hasChar, List.contains]
  cases he : List.elem c s.data with
  | false => rfl
  | true => exact absurd (List.elem_iff.mp he) h

/-! ### Claim C2 -/

/-- C2: the category-expression parser splits on the first `-` only: the
part before it is the include segment (split on `+`, trimmed, empties
dropped), the part after it is the exclude segment (split on `+` with
hyphen-containing pieces re-split on `-` and flattened); an expression
without `-` is all include segment. The two concrete examples of the claim
evaluate as stated. -/
theorem c2_category_expr_split :
    (∀ (expr : String) (pre post : List Char),
      expr.data = pre ++ '-' :: post → '-' ∉ pre →
      parseCategoryExpr expr = (parseIncludeSegment ⟨pre⟩, parseExcludeSegment ⟨post⟩)) ∧
    (∀ expr : String, '-' ∉ expr.data →
      parseCategoryExpr expr = (parseIncludeSegment expr, [])) ∧
    parseCategoryExpr "dsns+tech-meme" = (["dsns", "tech"], ["meme"]) ∧
    parseCategoryExpr "tech-meme-incident" = (["tech"], ["meme", "incident"]) := by
  refine ⟨?_, ?_, by decide, by decide⟩
  · intro expr pre post hdata hpre
    have hc : hasChar expr '-' = true :=
      hasChar_of_mem (hdata ▸ List.mem_append_right pre (List.mem_cons_self _ _))
    simp only [parseCategoryExpr, hc, if_true, hdata, splitOnceL_append '-' pre post hpre]
  · intro expr hnm
    have hc : hasChar expr '-' = false := hasChar_eq_false hnm
    simp only [parseCategoryExpr, hc, Bool.false_eq_true, if_false]
    exact congrArg _ rfl

/-- Witness for C2 at concrete inputs. -/
theorem c2_witness :
    parseCategoryExpr "dsns+tech-meme" =
      (parseIncludeSegment "dsns+tech", parseExcludeSegment "meme") ∧
    parseCategoryExpr "dsns" = (parseIncludeSegment "dsns", []) :=
  ⟨c2_category_expr_split.1 "dsns+tech-meme" "dsns+tech".data "meme".data (by decide)
    (by decide),
   c2_category_expr_split.2.1 "dsns" (by decide)⟩

/-! ### Claim C4 -/

/-- C4: with both the include list and the exclude list empty, both category
query operations short-circuit to zero results. -/
theorem c4_empty_filter_zero_results :
    ∀ (table : List TimelineEvent) (lim : Nat),
      get_events_by_categories table [] [] lim = [] ∧
      get_cooccurring_categories table [] [] lim = [] := by
  intro table lim
  exact ⟨by simp [get_events_by_categories], by simp [get_cooccurring_categories,
    normalizeQueryTags]⟩

/-! ### Claim C6 -/

/-- C6 counterexample: the exclude-segment branch for a piece without `-`
appends the trimmed piece with no emptiness check, so `"a-b+"` produces the
empty-string exclude tag; the result is reachable through
`parse_category_command`. This refutes the claim that no element of the
returned lists is the empty string. -/
theorem c6_counterexample :
    "" ∈ (parseCategoryExpr "a-b+").2 ∧
    parse_category_command "カテゴリ a-b+" =
      some (.category "filter" ["a"] ["b", ""]) := by
  constructor
  · decide
  · decide

/-- C6 amended: the include list never contains the empty string, and a lone
trailing `-` (an empty exclude segment) produces no exclude tags; but a `+`
bordering an empty piece inside a non-empty exclude segment does produce an
empty-string exclude tag (see the counterexample). -/
theorem c6_amended :
    (∀ expr : String, "" ∉ (parseCategoryExpr expr).1) ∧
    (∀ pre : List Char, '-' ∉ pre → (parseCategoryExpr ⟨pre ++ ['-']⟩).2 = []) := by
  constructor
  · intro expr hmem
    have h₁ : (parseCategoryExpr expr).1 = parseIncludeSegment
        (if hasChar expr '-' then ⟨(splitOnceL '-' expr.data).1⟩ else expr) := by
      simp only [parseCategoryExpr]
      split <;> rfl
    rw [h₁] at hmem
    rcases List.mem_filter.mp hmem with ⟨-, hne⟩
    simp at hne
  · intro pre hpre
    have hc : hasChar (⟨pre ++ ['-']⟩ : String) '-' = true :=
      hasChar_of_mem (by simp)
    have hsplit : splitOnceL '-' ((⟨pre ++ ['-']⟩ : String).data) = (pre, []) :=
      splitOnceL_append '-' pre [] hpre
    simp only [parseCategoryExpr, hc, if_true, hsplit]
    rfl

/-- Witness for C6 at concrete inputs. -/
theorem c6_witness :
    ("" ∉ (parseCategoryExpr "x+y").1) ∧ (parseCategoryExpr ⟨"a".data ++ ['-']⟩).2 = [] :=
  ⟨c6_amended.1 "x+y", c6_amended.2 "a".data (by decide)⟩

/-! ### Claim C3 -/

theorem contains_iff_mem {α : Type} [BEq α] [LawfulBEq α] (l : List α) (a : α) :
    l.contains a = true ↔ a ∈ l := by
  simp [List.contains, List.elem_iff]

/-- `_check_categories` as a conjunction of two `all` checks: the empty-list
guards of the source are redundant because `all` over `[]` is `true`. -/
theorem check_categories_eq (ev : TimelineEvent) (cats exc : List String) :
    _check_categories ev cats exc =
      (((normalizeQueryTags cats).all fun c => (eventCategoriesNormalized ev).contains c) &&
       ((normalizeQueryTags exc).all fun c => !((eventCategoriesNormalized ev).contains c))) := by
  simp only [_check_categories]
  split_ifs with h₁ h₂
  · have hall : ((normalizeQueryTags cats).all fun c =>
        (eventCategoriesNormalized ev).contains c) = false :=
      Bool.eq_false_iff.mpr h₁.2
    rw [hall, Bool.false_and]
  · rcases List.any_eq_true.mp h₂.2 with ⟨c, hc, hmem⟩
    have hall₂ : ((normalizeQueryTags exc).all fun c =>
        !((eventCategoriesNormalized ev).contains c)) = false := by
      rw [Bool.eq_false_iff]
      intro hall
      have hb := List.all_eq_true.mp hall c hc
      rw [hmem] at hb
      exact absurd hb (by simp)
    rw [hall₂, Bool.and_false]
  · push_neg at h₁ h₂
    have hall₁ : ((normalizeQueryTags cats).all fun c =>
        (eventCategoriesNormalized ev).contains c) = true := by
      by_cases hn : normalizeQueryTags cats = []
      · rw [hn]; rfl
      · exact h₁ hn
    have hall₂ : ((normalizeQueryTags exc).all fun c =>
        !((eventCategoriesNormalized ev).contains c)) = true := by
      by_cases hn : normalizeQueryTags exc = []
      · rw [hn]; rfl
      · have hany : ((normalizeQueryTags exc).any fun c =>
            (eventCategoriesNormalized ev).contains c) = false :=
          Bool.eq_false_iff.mpr (h₂ hn)
        rw [List.all_eq_true]
        intro c hc
        have hnc := List.any_eq_false.mp hany c hc
        simp only [Bool.not_eq_true']
        exact Bool.eq_false_iff.mpr hnc
    rw [hall₁, hall₂]
    rfl

/-- C3 counterexample: a blank include tag is dropped by the source before
matching (`if cat.strip()`), so `_check_categories` accepts an event even
though the claimed iff requires the (never occurring) normalized blank tag
to be among the event's tags. -/
theorem c3_counterexample :
    _check_categories ⟨2020, 1, 1, "x", "dsns tech meme"⟩ [""] [] = true ∧
    eventCategoriesNormalized ⟨2020, 1, 1, "x", "dsns tech meme"⟩ =
      ["dsns", "tech", "meme"] ∧
    normalizeTag "" ∉ (["dsns", "tech", "meme"] : List String) := by
  refine ⟨by decide, by decide, by decide⟩

/-- C3 amended: the predicate is true iff every include tag with non-blank
content occurs (normalized, as a whole tag) among the event's normalized
whitespace-separated tags and no exclude tag with non-blank content occurs;
blank (whitespace-only) query tags are discarded before matching. An empty
include list matches every event, and the claim's concrete examples hold. -/
theorem c3_check_categories_amended :
    (∀ (ev : TimelineEvent) (cats exc : List String),
      _check_categories ev cats exc = true ↔
        ((∀ c ∈ cats, pyStrip c ≠ "" → normalizeTag c ∈ eventCategoriesNormalized ev) ∧
         (∀ c ∈ exc, pyStrip c ≠ "" → normalizeTag c ∉ eventCategoriesNormalized ev))) ∧
    (∀ ev : TimelineEvent, _check_categories ev [] [] = true) ∧
    _check_categories ⟨2020, 1, 1, "x", "dsns tech meme"⟩ ["dsns", "tech"] [] = true ∧
    _check_categories ⟨2020, 1, 1, "x", "dsns tech meme"⟩ ["dsns", "tech"] ["meme"] = false := by
  refine ⟨?_, fun ev => by rw [check_categories_eq]; rfl, by decide, by decide⟩
  intro ev cats exc
  rw [check_categories_eq, Bool.and_eq_true, List.all_eq_true, List.all_eq_true]
  have hquery : ∀ (l : List String) (t : String),
      t ∈ normalizeQueryTags l ↔ ∃ c ∈ l, pyStrip c ≠ "" ∧ normalizeTag c = t := by
    intro l t
    simp [normalizeQueryTags, List.mem_filter, and_assoc]
  constructor
  · rintro ⟨hinc, hexc⟩
    constructor
    · intro c hc hstrip
      have hm := hinc (normalizeTag c) ((hquery cats _).mpr ⟨c, hc, hstrip, rfl⟩)
      exact (contains_iff_mem _ _).mp hm
    · intro c hc hstrip hmem
      have hm := hexc (normalizeTag c) ((hquery exc _).mpr ⟨c, hc, hstrip, rfl⟩)
      rw [(contains_iff_mem (eventCategoriesNormalized ev) (normalizeTag c)).mpr hmem] at hm
      exact absurd hm (by simp)
  · rintro ⟨hinc, hexc⟩
    constructor
    · intro t ht
      rcases (hquery cats t).mp ht with ⟨c, hc, hstrip, rfl⟩
      exact (contains_iff_mem _ _).mpr (hinc c hc hstrip)
    · intro t ht
      rcases (hquery exc t).mp ht with ⟨c, hc, hstrip, rfl⟩
      have := hexc c hc hstrip
      simp only [Bool.not_eq_true']
      exact Bool.eq_false_iff.mpr fun hcon => this ((contains_iff_mem _ _).mp hcon)

/-- Witness for C3 at a concrete input, through the amended iff. -/
theorem c3_witness :
    normalizeTag "D-SNS" ∈ eventCategoriesNormalized ⟨2020, 1, 1, "x", "dsns tech"⟩ := by
  have h := (c3_check_categories_amended.1 ⟨2020, 1, 1, "x", "dsns tech"⟩ ["D-SNS"] []).mp
    (by decide)
  exact h.1 "D-SNS" (by decide) (by decide)

/-! ### Claim C8 -/

/-- C8: the two decade examples of the claim evaluate as stated (`'統計'` is
the Statistics sub-type, `'代表'` Representative), and any input recognized
as a decade command that contains none of the sub-command keywords gets the
default sub-type `'統計'` (Statistics). -/
theorem c8_decade_subtype :
    parse_command "2000年代 統計" none = .decade "統計" 2000 2009 "2000年代" [] [] ∧
    parse_command "90年代 代表" none = .decade "代表" 1990 1999 "1990年代" [] [] ∧
    (∀ (content : String) (s e : Nat),
      decadeYears content = some (s, e) →
      (∀ p ∈ subCommandKeywords, ∀ kw ∈ p.2, hasSub content kw = false) →
      parse_decade_command content =
        some (.decade "統計" s e (_get_decade_name s)
          (decadeCategoryClause content).1 (decadeCategoryClause content).2)) := by
  refine ⟨by decide, by decide, ?_⟩
  intro content s e hyears hnokw
  have hfind : subCommandKeywords.find?
      (fun p => p.2.any fun kw => hasSub content kw) = none := by
    rw [List.find?_eq_none]
    intro p hp
    rw [List.any_eq_true]
    rintro ⟨kw, hkw, htrue⟩
    rw [hnokw p hp kw hkw] at htrue
    exact absurd htrue (by simp)
  have hsub : decadeSubCommand content = "統計" := by
    rw [decadeSubCommand, hfind]
  rw [parse_decade_command, hyears, hsub]

/-- Witness for C8 at a concrete input with no sub-command keyword. -/
theorem c8_witness :
    parse_decade_command "70年代" =
      some (.decade "統計" 1970 1979 (_get_decade_name 1970)
        (decadeCategoryClause "70年代").1 (decadeCategoryClause "70年代").2) :=
  c8_decade_subtype.2.2 "70年代" 1970 1979 (by decide) (by decide)

/-! ### Claim C1 -/

theorem cmd_type_mem (c : Cmd) :
    c.type ∈ ["today", "date", "search", "help", "status", "decade", "category"] := by
  cases c <;> simp [Cmd.type]

theorem searchLoop_eq_none (content contentLower : String) (kws : List String)
    (h : ∀ kw ∈ kws, hasSub contentLower kw = false) :
    searchLoop content contentLower kws = none := by
  induction kws with
  | nil => rfl
  | cons kw rest ih =>
    rw [searchLoop, h kw (List.mem_cons_self _ _)]
    exact ih fun k hk => h k (List.mem_cons_of_mem _ hk)

/-- C1: `parse_command` is total (every operation of the source's `try` body
is total, so the `except` re-raise is unreachable) and always returns a
dictionary whose `type` is one of the seven known values; an input on which
no recognition rule fires yields the Help command. -/
theorem c1_parse_command_total :
    (∀ (content : String) (botUsername : Option String),
      (parse_command content botUsername).type ∈
        ["today", "date", "search", "help", "status", "decade", "category"]) ∧
    (∀ content : String,
      parse_decade_command content = none →
      (∀ m d, searchMonthDay content.data = some (m, d) →
        ¬(1 ≤ m ∧ m ≤ 12 ∧ 1 ≤ d ∧ d ≤ 31)) →
      (helpKeywords.any fun kw => hasSub (pyLowerStr content) kw) = false →
      (statusKeywords.any fun kw => hasSub (pyLowerStr content) kw) = false →
      (searchKeywordsList.any fun kw => hasSub (pyLowerStr content) kw) = false →
      parse_category_command content = none →
      (todayKeywords.any fun kw => hasSub (pyLowerStr content) kw) = false →
      parse_command content none = .help) := by
  constructor
  · intro content botUsername
    exact cmd_type_mem _
  · intro content hdec hdate hhelp hstatus hsearch hcat htoday
    have hafter : parseCommandAfterDate content (pyLowerStr content) = .help := by
      rw [parseCommandAfterDate, hhelp]
      rw [if_neg (by simp)]
      rw [if_neg (fun hc => by rw [hstatus] at hc; exact absurd hc.1 (by simp))]
      rw [searchLoop_eq_none content (pyLowerStr content) searchKeywordsList
        (fun kw hk => List.any_eq_false.mp hsearch kw hk |> fun hn =>
          Bool.eq_false_iff.mpr hn), hcat, htoday]
      rw [if_neg (by simp)]
    show parseCommandCore (stripBotName content none) = .help
    rw [show stripBotName content none = content from rfl]
    simp only [parseCommandCore, hdec]
    cases hmd : searchMonthDay content.data with
    | none => exact hafter
    | some p =>
      obtain ⟨m, d⟩ := p
      simp only
      rw [if_neg (hdate m d hmd)]
      exact hafter

/-- Witness for C1 at a concrete unrecognized input. -/
theorem c1_witness :
    (parse_command "こんにちは" none).type ∈
      ["today", "date", "search", "help", "status", "decade", "category"] ∧
    parse_command "こんにちは" none = .help := by
  refine ⟨c1_parse_command_total.1 "こんにちは" none, ?_⟩
  refine c1_parse_command_total.2 "こんにちは" (by decide) ?_ (by decide) (by decide)
    (by decide) (by decide) (by decide)
  intro m d hmd
  rw [show searchMonthDay (String.data "こんにちは") = none from by decide] at hmd
  exact Option.noConfusion hmd

/-! ### Claims C10 and C9: cascade shape lemmas -/

theorem parse_decade_command_type (content : String) (c : Cmd)
    (h : parse_decade_command content = some c) : c.type = "decade" := by
  rw [parse_decade_command] at h
  cases hy : decadeYears content with
  | none => rw [hy] at h; exact Option.noConfusion h
  | some p =>
    obtain ⟨s, e⟩ := p
    rw [hy] at h
    simp only at h
    injection h with h₁
    rw [← h₁]
    rfl

theorem searchLoop_type (content cl : String) (kws : List String) (c : Cmd)
    (h : searchLoop content cl kws = some c) : c.type = "search" := by
  induction kws with
  | nil => exact Option.noConfusion h
  | cons kw rest ih =>
    rw [searchLoop] at h
    split at h
    · split at h
      · exact ih h
      · split at h
        · injection h with h₁; rw [← h₁]; rfl
        · dsimp only at h
          split at h
          · injection h with h₁; rw [← h₁]; rfl
          · exact ih h
    · exact ih h

theorem parse_category_command_type (content : String) (c : Cmd)
    (h : parse_category_command content = some c) : c.type = "category" := by
  rw [parse_category_command] at h
  split at h
  · injection h with h₁; rw [← h₁]; rfl
  · split at h
    · injection h with h₁; rw [← h₁]; rfl
    · split at h
      · injection h with h₁; rw [← h₁]; rfl
      · split at h
        · dsimp only at h
          split at h
          · exact Option.noConfusion h
          · injection h with h₁; rw [← h₁]; rfl
        · exact Option.noConfusion h

theorem parseCommandAfterDate_not_date (content cl : String) (m d : Nat) :
    parseCommandAfterDate content cl ≠ .date m d := by
  intro h
  rw [parseCommandAfterDate] at h
  split at h
  · exact Cmd.noConfusion h
  · split at h
    · exact Cmd.noConfusion h
    · split at h
      · next cmd heq =>
        have := searchLoop_type content cl searchKeywordsList cmd heq
        rw [h] at this
        exact absurd this (by simp [Cmd.type])
      · split at h
        · next cmd heq =>
          have := parse_category_command_type content cmd heq
          rw [h] at this
          exact absurd this (by simp [Cmd.type])
        · split at h
          · exact Cmd.noConfusion h
          · exact Cmd.noConfusion h

/-- When the decade rule fails and the date pattern's leftmost match is out
of range, the cascade continues below the date rule. -/
theorem parseCommandCore_eq_afterDate (content : String)
    (hdec : parse_decade_command content = none)
    (hdate : ∀ m d, searchMonthDay content.data = some (m, d) →
      ¬(1 ≤ m ∧ m ≤ 12 ∧ 1 ≤ d ∧ d ≤ 31)) :
    parseCommandCore content = parseCommandAfterDate content (pyLowerStr content) := by
  simp only [parseCommandCore, hdec]
  cases hmd : searchMonthDay content.data with
  | none => rfl
  | some p =>
    obtain ⟨m, d⟩ := p
    simp only
    rw [if_neg (hdate m d hmd)]

/-- C10: every Date command carries a validated month and day; an
out-of-range leftmost `M月D日` match does not produce a Date command but
passes control to the rules after the date rule; `"13月40日"` (which has no
other recognizable pattern) yields Help. -/
theorem c10_date_validation :
    (∀ (content : String) (botUsername : Option String) (m d : Nat),
      parse_command content botUsername = .date m d →
      1 ≤ m ∧ m ≤ 12 ∧ 1 ≤ d ∧ d ≤ 31) ∧
    (∀ (content : String) (m d : Nat),
      parse_decade_command content = none →
      searchMonthDay content.data = some (m, d) →
      ¬(1 ≤ m ∧ m ≤ 12 ∧ 1 ≤ d ∧ d ≤ 31) →
      parseCommandCore content = parseCommandAfterDate content (pyLowerStr content)) ∧
    parse_command "13月40日" none = .help := by
  refine ⟨?_, ?_, by decide⟩
  · intro content botUsername m d h
    rw [parse_command] at h
    set cc := stripBotName content botUsername with hcc
    simp only [parseCommandCore] at h
    cases hdec : parse_decade_command cc with
    | some c =>
      rw [hdec] at h
      simp only at h
      have htype := parse_decade_command_type cc c hdec
      rw [h] at htype
      exact absurd htype (by simp [Cmd.type])
    | none =>
      rw [hdec] at h
      cases hmd : searchMonthDay cc.data with
      | none =>
        rw [hmd] at h
        exact absurd h (parseCommandAfterDate_not_date cc (pyLowerStr cc) m d)
      | some p =>
        obtain ⟨m₁, d₁⟩ := p
        rw [hmd] at h
        simp only at h
        by_cases hv : 1 ≤ m₁ ∧ m₁ ≤ 12 ∧ 1 ≤ d₁ ∧ d₁ ≤ 31
        · rw [if_pos hv] at h
          injection h with h₁ h₂
          rw [← h₁, ← h₂]
          exact hv
        · rw [if_neg hv] at h
          exact absurd h (parseCommandAfterDate_not_date cc (pyLowerStr cc) m d)
  · intro content m d hdec hmd hv
    exact parseCommandCore_eq_afterDate content hdec
      (fun m₁ d₁ h₁ => by rw [hmd] at h₁; injection h₁ with h₂; cases h₂; exact hv)

/-- Witness for C10: `"5月1日"` parses to a valid Date, and the invalid
`"13月40日"` match hands control to the later rules. -/
theorem c10_witness :
    (1 ≤ 5 ∧ 5 ≤ 12 ∧ 1 ≤ 1 ∧ 1 ≤ 31) ∧
    parseCommandCore "13月40日" =
      parseCommandAfterDate "13月40日" (pyLowerStr "13月40日") :=
  ⟨c10_date_validation.1 "5月1日" none 5 1 (by decide),
   c10_date_validation.2.1 "13月40日" 13 40 (by decide) (by decide) (by decide)⟩

/-! ### Claim C9 -/

/-- C9 counterexample: the plain-search branch removes EVERY occurrence of
the matched keyword (`content.replace(keyword, '')`), not only the single
matched one: on `"検索 abc検索"` the source yields the query `"abc"`,
while removing only the first occurrence and trimming would give
`"abc検索"`. -/
theorem c9_counterexample :
    parse_command "検索 abc検索" none = .search "abc" ∧
    pyStrip (removeFirstOccurrence "検索 abc検索" "検索") = "abc検索" ∧
    ("abc" : String) ≠ "abc検索" := by
  refine ⟨by decide, by decide, by decide⟩

theorem searchLoop_first_match (content cl kw : String)
    (hpre : pyStartsWith cl "カテゴリ" = false)
    (hpat : searchCatSearch content = none)
    (hq : pyStrip (pyReplaceAll content kw) ≠ "") :
    ∀ kws : List String,
      kws.find? (fun k => hasSub cl k) = some kw →
      searchLoop content cl kws = some (.search (pyStrip (pyReplaceAll content kw))) := by
  intro kws
  induction kws with
  | nil => intro h; exact Option.noConfusion h
  | cons k rest ih =>
    intro hfind
    rw [List.find?_cons] at hfind
    cases hk : hasSub cl k with
    | true =>
      rw [hk] at hfind
      have hkw : k = kw := by simpa using hfind
      subst hkw
      rw [searchLoop]
      rw [if_pos hk, if_neg (by rw [hpre]; exact Bool.false_ne_true), hpat]
      dsimp only
      rw [if_pos hq]
    | false =>
      rw [hk] at hfind
      rw [searchLoop, if_neg (by rw [hk]; exact Bool.false_ne_true)]
      exact ih hfind

/-- C9 amended: under the claim's other hypotheses (some search keyword
occurs — `kw` being the first in table order that does —, the text does not
start with the category keyword, the decade/date/help/status rules did not
fire, the combined search+category pattern does not match), the classifier
removes EVERY occurrence of the matched keyword from the original text
(keyword matching is done on the lower-cased copy, removal on the original),
trims the remainder, and emits Search with it whenever it is non-empty. -/
theorem c9_search_amended :
    ∀ (content kw : String),
      parse_decade_command content = none →
      (∀ m d, searchMonthDay content.data = some (m, d) →
        ¬(1 ≤ m ∧ m ≤ 12 ∧ 1 ≤ d ∧ d ≤ 31)) →
      (helpKeywords.any fun k => hasSub (pyLowerStr content) k) = false →
      (statusKeywords.any fun k => hasSub (pyLowerStr content) k) = false →
      pyStartsWith (pyLowerStr content) "カテゴリ" = false →
      searchKeywordsList.find? (fun k => hasSub (pyLowerStr content) k) = some kw →
      searchCatSearch content = none →
      pyStrip (pyReplaceAll content kw) ≠ "" →
      parse_command content none = .search (pyStrip (pyReplaceAll content kw)) := by
  intro content kw hdec hdate hhelp hstatus hpre hfind hpat hq
  show parseCommandCore (stripBotName content none) = _
  rw [show stripBotName content none = content from rfl]
  rw [parseCommandCore_eq_afterDate content hdec hdate]
  rw [parseCommandAfterDate, hhelp]
  rw [if_neg (by simp)]
  rw [if_neg (fun hc => by rw [hstatus] at hc; exact absurd hc.1 (by simp))]
  rw [searchLoop_first_match content (pyLowerStr content) kw hpre hpat hq
    searchKeywordsList hfind]

/-- Witness for C9 at a concrete input. -/
theorem c9_witness :
    parse_command "search foo" none =
      .search (pyStrip (pyReplaceAll "search foo" "search")) := by
  refine c9_search_amended "search foo" "search" (by decide) ?_ (by decide) (by decide)
    (by decide) (by decide) (by decide) (by decide)
  intro m d hmd
  rw [show searchMonthDay (String.data "search foo") = none from by decide] at hmd
  exact Option.noConfusion hmd

/-! ### Claim C5 -/

theorem truncate_cons {α : Type} (e : α) (es : List α) (fmt : α → String)
    (headerParts footerParts : List String) (maxChars : Nat) :
    _truncate_message_with_events (e :: es) fmt headerParts footerParts maxChars =
      (if (String.intercalate "\n"
            (assembledParts (e :: es) fmt headerParts footerParts maxChars)).length > maxChars
       then (⟨(String.intercalate "\n"
            (assembledParts (e :: es) fmt headerParts footerParts maxChars)).data.take
              (maxChars - 3)⟩ : String) ++ "..."
       else String.intercalate "\n"
            (assembledParts (e :: es) fmt headerParts footerParts maxChars)) := rfl

/-- C5 counterexample: on an empty item list the assembler returns
header++footer joined with NO final length check, so the budget can be
exceeded (`maxChars = 3`, a 10-character header); and when the hard
truncation fires, the returned string ends with `"..."`, not with the
remainder notice, even though items were omitted. -/
theorem c5_counterexample :
    (_truncate_message_with_events ([] : List String) id ["aaaaaaaaaa"] [] 3).length = 10 ∧
    _truncate_message_with_events ["abcdef"] id ([] : List String) [] 3 = "..." ∧
    displayedCount ["abcdef"] id ([] : List String) 3 = 0 ∧
    (noticeLine 1).data.isSuffixOf ("..." : String).data = false := by
  refine ⟨by decide, by decide, by decide, by decide⟩

/-- C5 amended: for NON-EMPTY item lists and `maxChars ≥ 3` the result
always has length at most `maxChars`; and when some items were omitted AND
the assembled string fits in the budget (no hard truncation), the result is
the assembled parts joined by newlines ending in a blank line followed by
the remainder notice carrying exactly the omitted count. -/
theorem c5_truncate_amended {α : Type} (events : List α) (fmt : α → String)
    (headerParts footerParts : List String) (maxChars : Nat)
    (h₃ : 3 ≤ maxChars) (hne : events ≠ []) :
    (_truncate_message_with_events events fmt headerParts footerParts maxChars).length
        ≤ maxChars ∧
    ((String.intercalate "\n"
        (assembledParts events fmt headerParts footerParts maxChars)).length ≤ maxChars →
      displayedCount events fmt headerParts maxChars < events.length →
      ∃ ps, _truncate_message_with_events events fmt headerParts footerParts maxChars =
        String.intercalate "\n" (ps ++
          ["", noticeLine (events.length - displayedCount events fmt headerParts maxChars)])) := by
  obtain ⟨e, es, rfl⟩ : ∃ e es, events = e :: es := by
    cases events with
    | nil => exact absurd rfl hne
    | cons e es => exact ⟨e, es, rfl⟩
  constructor
  · rw [truncate_cons]
    set R := String.intercalate "\n"
      (assembledParts (e :: es) fmt headerParts footerParts maxChars) with hR
    by_cases hgt : R.length > maxChars
    · rw [if_pos hgt]
      have hgt' : maxChars < R.data.length := hgt
      have hlen : ((⟨R.data.take (maxChars - 3)⟩ : String) ++ "...").length =
          (R.data.take (maxChars - 3)).length + 3 := by
        rw [String.length_append]
        rfl
      rw [hlen, List.length_take]
      rw [Nat.min_eq_left (by omega : maxChars - 3 ≤ R.data.length)]
      omega
    · rw [if_neg hgt]
      omega
  · intro hfit hdisp
    rw [truncate_cons, if_neg (by omega)]
    refine ⟨assembledPartsPre (e :: es) fmt headerParts footerParts maxChars, ?_⟩
    rw [assembledParts, if_pos hdisp]

/-- Witness for C5: a two-item list whose second item does not fit in the
budget of 30; one item is displayed, the assembled text fits, and the reply
ends with the notice for the 1 omitted item. -/
theorem c5_witness :
    (_truncate_message_with_events ["aaaaa", "aaaaaaaaaaaaaaaaaaaaaaaaaaaaaa"] id
        ["H"] [] 30).length ≤ 30 ∧
    (∃ ps, _truncate_message_with_events ["aaaaa", "aaaaaaaaaaaaaaaaaaaaaaaaaaaaaa"] id
        ["H"] [] 30 =
      String.intercalate "\n" (ps ++
        ["", noticeLine (2 - displayedCount ["aaaaa", "aaaaaaaaaaaaaaaaaaaaaaaaaaaaaa"] id
          ["H"] 30)])) := by
  have h := c5_truncate_amended ["aaaaa", "aaaaaaaaaaaaaaaaaaaaaaaaaaaaaa"] id ["H"] [] 30
    (by omega) (by simp)
  exact ⟨h.1, h.2 (by decide) (by decide)⟩

/-! ### Claim C7: counting and sorting lemmas -/

def mapKeys (m : List (String × Nat)) : List String := m.map Prod.fst

/-- The keys of a tag stream in first-seen order, skipping those in `seen`. -/
def dedupFirstSeen (seen : List String) : List String → List String
  | [] => []
  | x :: xs =>
    if x ∈ seen then dedupFirstSeen seen xs else x :: dedupFirstSeen (x :: seen) xs

theorem bump_of_not_mem (m : List (String × Nat)) (k : String) (h : k ∉ mapKeys m) :
    bump m k = m ++ [(k, 1)] := by
  induction m with
  | nil => rfl
  | cons p rest ih =>
    obtain ⟨k₁, v⟩ := p
    have hk : k₁ ≠ k := fun he => h (by simp [mapKeys, he])
    have h' : k ∉ mapKeys rest := fun hm => h (by simp [mapKeys] at hm ⊢; exact Or.inr hm)
    simp [bump, hk, ih h']

theorem bump_first (k : String) (v : Nat) :
    ∀ m₁ : List (String × Nat), ∀ m₂ : List (String × Nat), k ∉ mapKeys m₁ →
      bump (m₁ ++ (k, v) :: m₂) k = m₁ ++ (k, v + 1) :: m₂ := by
  intro m₁
  induction m₁ with
  | nil => intro m₂ _; simp [bump]
  | cons p rest ih =>
    obtain ⟨k₁, v₁⟩ := p
    intro m₂ h
    have hk : k₁ ≠ k := fun he => h (by simp [mapKeys, he])
    have h' : k ∉ mapKeys rest := fun hm => h (by simp [mapKeys] at hm ⊢; exact Or.inr hm)
    simp [bump, hk, ih m₂ h']

theorem exists_first_occurrence {m : List (String × Nat)} {k : String}
    (h : k ∈ mapKeys m) :
    ∃ m₁ v m₂, m = m₁ ++ (k, v) :: m₂ ∧ k ∉ mapKeys m₁ := by
  induction m with
  | nil => simp [mapKeys] at h
  | cons p rest ih =>
    obtain ⟨k₁, v₁⟩ := p
    by_cases hk : k₁ = k
    · exact ⟨[], v₁, rest, by rw [hk]; rfl, by simp [mapKeys]⟩
    · have h' : k ∈ mapKeys rest := by
        rcases (by simpa [mapKeys] using h : k = k₁ ∨ k ∈ mapKeys rest) with h₁ | h₂
        · exact absurd h₁.symm hk
        · exact h₂
      obtain ⟨m₁, v, m₂, heq, hnm⟩ := ih h'
      refine ⟨(k₁, v₁) :: m₁, v, m₂, by rw [heq]; rfl, ?_⟩
      simp only [mapKeys, List.map_cons, List.mem_cons]
      rintro (h₁ | h₂)
      · exact hk h₁.symm
      · exact hnm h₂

theorem dedupFirstSeen_congr (l : List String) :
    ∀ s₁ s₂ : List String, (∀ a, a ∈ s₁ ↔ a ∈ s₂) →
      dedupFirstSeen s₁ l = dedupFirstSeen s₂ l := by
  induction l with
  | nil => intro _ _ _; rfl
  | cons x xs ih =>
    intro s₁ s₂ hs
    rw [dedupFirstSeen, dedupFirstSeen]
    by_cases hx : x ∈ s₁
    · rw [if_pos hx, if_pos ((hs x).mp hx)]
      exact ih s₁ s₂ hs
    · rw [if_neg hx, if_neg (fun hc => hx ((hs x).mpr hc))]
      refine congrArg _ (ih (x :: s₁) (x :: s₂) fun a => ?_)
      simp [hs a]

theorem not_mem_of_mem_dedupFirstSeen :
    ∀ (l s : List String) (k : String), k ∈ dedupFirstSeen s l → k ∉ s := by
  intro l
  induction l with
  | nil => intro s k h; exact absurd h (List.not_mem_nil k)
  | cons x xs ih =>
    intro s k h
    rw [dedupFirstSeen] at h
    by_cases hx : x ∈ s
    · rw [if_pos hx] at h
      exact ih s k h
    · rw [if_neg hx] at h
      rcases List.mem_cons.mp h with rfl | htail
      · exact hx
      · have := ih (x :: s) k htail
        exact fun hc => this (List.mem_cons_of_mem x hc)

/-- The central counting lemma: folding `bump` over a tag stream starting
from a key-distinct counter increments existing entries in place and appends
new keys in first-seen order, each with its multiplicity in the stream. -/
theorem foldl_bump_eq (l : List String) :
    ∀ m : List (String × Nat), (mapKeys m).Nodup →
      l.foldl bump m =
        m.map (fun p => (p.1, p.2 + l.count p.1)) ++
          (dedupFirstSeen (mapKeys m) l).map fun k => (k, l.count k) := by
  induction l with
  | nil =>
    intro m _
    simp [dedupFirstSeen]
  | cons x xs ih =>
    intro m hnd
    rw [List.foldl_cons]
    by_cases hx : x ∈ mapKeys m
    · obtain ⟨m₁, v, m₂, rfl, hnm₁⟩ := exists_first_occurrence hx
      have hkeys : mapKeys (m₁ ++ (x, v + 1) :: m₂) = mapKeys (m₁ ++ (x, v) :: m₂) := by
        simp [mapKeys]
      have hxm₂ : x ∉ mapKeys m₂ := by
        have h₂ := List.Nodup.of_append_right (by simpa [mapKeys] using hnd :
          (mapKeys m₁ ++ x :: mapKeys m₂).Nodup)
        exact (List.nodup_cons.mp h₂).1
      have hdisj : ∀ a ∈ mapKeys m₁, a ≠ x := by
        intro a ha hax
        have hdis := List.disjoint_of_nodup_append (by simpa [mapKeys] using hnd :
          (mapKeys m₁ ++ x :: mapKeys m₂).Nodup)
        exact hdis ha (hax ▸ List.mem_cons_self x (mapKeys m₂))
      rw [bump_first x v m₁ m₂ hnm₁, ih _ (hkeys ▸ hnd)]
      have hcnt : ∀ k : String, k ≠ x → (x :: xs).count k = xs.count k := by
        intro k hk
        rw [List.count_cons, beq_eq_false_iff_ne.mpr fun he => hk he.symm]
        simp
      have hmapm : (m₁ ++ (x, v + 1) :: m₂).map (fun p => (p.1, p.2 + xs.count p.1)) =
          (m₁ ++ (x, v) :: m₂).map (fun p => (p.1, p.2 + (x :: xs).count p.1)) := by
        simp only [List.map_append, List.map_cons]
        congr 1
        · refine List.map_congr_left fun p hp => ?_
          have : p.1 ≠ x := hdisj p.1 (List.mem_map.mpr ⟨p, hp, rfl⟩)
          rw [hcnt p.1 this]
        · congr 1
          · rw [List.count_cons_self]
            simp [Nat.add_assoc, Nat.add_comm 1]
          · refine List.map_congr_left fun p hp => ?_
            have : p.1 ≠ x := fun he => hxm₂ (he ▸ List.mem_map.mpr ⟨p, hp, rfl⟩)
            rw [hcnt p.1 this]
      rw [hmapm, hkeys]
      have hdedup : dedupFirstSeen (mapKeys (m₁ ++ (x, v) :: m₂)) (x :: xs) =
          dedupFirstSeen (mapKeys (m₁ ++ (x, v) :: m₂)) xs := by
        rw [dedupFirstSeen, if_pos hx]
      rw [hdedup]
      refine congrArg _ (List.map_congr_left fun k hk => ?_)
      have hknx : k ≠ x := fun he => (not_mem_of_mem_dedupFirstSeen xs _ k hk) (he ▸ hx)
      rw [hcnt k hknx]
    · rw [bump_of_not_mem m x hx]
      have hkeys : mapKeys (m ++ [(x, 1)]) = mapKeys m ++ [x] := by simp [mapKeys]
      have hnd' : (mapKeys (m ++ [(x, 1)])).Nodup := by
        rw [hkeys, List.nodup_append]
        exact ⟨hnd, List.nodup_singleton x, by
          intro a ha hax
          rw [List.mem_singleton] at hax
          exact hx (hax ▸ ha)⟩
      rw [ih _ hnd']
      have hcnt : ∀ k : String, k ≠ x → (x :: xs).count k = xs.count k := by
        intro k hk
        rw [List.count_cons, beq_eq_false_iff_ne.mpr fun he => hk he.symm]
        simp
      have hdedup : dedupFirstSeen (mapKeys m) (x :: xs) =
          x :: dedupFirstSeen (x :: mapKeys m) xs := by
        rw [dedupFirstSeen, if_neg hx]
      rw [hkeys, hdedup]
      rw [List.map_append, List.map_cons]
      have h₁ : m.map (fun p => (p.1, p.2 + xs.count p.1)) =
          m.map (fun p => (p.1, p.2 + (x :: xs).count p.1)) := by
        refine List.map_congr_left fun p hp => ?_
        have : p.1 ≠ x := fun he => hx (he ▸ List.mem_map.mpr ⟨p, hp, rfl⟩)
        rw [hcnt p.1 this]
      have h₂ : dedupFirstSeen (mapKeys m ++ [x]) xs =
          dedupFirstSeen (x :: mapKeys m) xs := by
        refine dedupFirstSeen_congr xs _ _ fun a => ?_
        simp [or_comm]
      have h₃ : ((x, 1 + xs.count x) : String × Nat) = (x, (x :: xs).count x) := by
        rw [List.count_cons_self]
        simp [Nat.add_comm]
      have h₄ : (dedupFirstSeen (mapKeys m ++ [x]) xs).map (fun k => (k, xs.count k)) =
          (dedupFirstSeen (x :: mapKeys m) xs).map (fun k => (k, (x :: xs).count k)) := by
        rw [h₂]
        refine List.map_congr_left fun k hk => ?_
        have hknx : k ≠ x := fun he =>
          (not_mem_of_mem_dedupFirstSeen xs _ k hk) (he ▸ List.mem_cons_self x _)
        rw [hcnt k hknx]
      rw [h₁, h₄, List.append_assoc]
      simp [h₃]

theorem mem_stableInsert {α : Type} (pass_ : α → α → Bool) (x a : α) :
    ∀ l : List α, a ∈ stableInsert pass_ x l ↔ a = x ∨ a ∈ l := by
  intro l
  induction l with
  | nil => simp [stableInsert]
  | cons y ys ih =>
    rw [stableInsert]
    by_cases hp : pass_ y x = true
    · rw [if_pos hp]
      simp only [List.mem_cons, ih]
      tauto
    · rw [if_neg hp]
      simp only [List.mem_cons]

theorem stableInsert_sorted (x : String × Nat) (l : List (String × Nat))
    (hl : l.Pairwise fun a b => b.2 ≤ a.2) :
    (stableInsert (fun q p => q.2 ≥ p.2) x l).Pairwise fun a b => b.2 ≤ a.2 := by
  induction l with
  | nil => simp [stableInsert]
  | cons y ys ih =>
    rw [stableInsert]
    rcases List.pairwise_cons.mp hl with ⟨hy, hys⟩
    by_cases hxy : (y.2 ≥ x.2 : Prop)
    · rw [if_pos (by simpa using hxy)]
      rw [List.pairwise_cons]
      refine ⟨fun z hz => ?_, ih hys⟩
      rcases (mem_stableInsert _ x z ys).mp hz with rfl | hzys
      · exact hxy
      · exact hy z hzys
    · rw [if_neg (by simpa using hxy)]
      rw [List.pairwise_cons]
      refine ⟨fun z hz => ?_, hl⟩
      rcases List.mem_cons.mp hz with rfl | hzys
      · omega
      · have := hy z hzys
        omega

theorem sortByCountDesc_sorted (l : List (String × Nat)) :
    (sortByCountDesc l).Pairwise fun a b => b.2 ≤ a.2 := by
  suffices h : ∀ acc : List (String × Nat), (acc.Pairwise fun a b => b.2 ≤ a.2) →
      ((l.foldl (fun acc x => stableInsert (fun q p => q.2 ≥ p.2) x acc) acc).Pairwise
        fun a b => b.2 ≤ a.2) by
    exact h [] (by simp)
  induction l with
  | nil => intro acc h; simpa using h
  | cons x xs ih =>
    intro acc h
    rw [List.foldl_cons]
    exact ih _ (stableInsert_sorted x acc h)

/-- C7 counterexample: `get_cooccurring_categories` selects rows with SQL
`LIKE '%tech%'` substring matching and (unlike `get_events_by_categories`)
applies no strict whole-tag post-filter, so an event tagged only
`technology` is selected by include `tech` and contributes, although it does
not match the §4.2 whole-tag rule (as `_check_categories` shows) — the
claim would require an empty mapping here. -/
theorem c7_counterexample :
    get_cooccurring_categories [⟨2020, 1, 1, "x", "technology"⟩] ["tech"] [] 20 =
      [("technology", 1)] ∧
    _check_categories ⟨2020, 1, 1, "x", "technology"⟩ ["tech"] [] = false := by
  refine ⟨by decide, by decide⟩

/-- C7 amended: the co-occurrence operation selects the events whose
lower-cased hyphen-stripped categories string contains every normalized
include tag as a SUBSTRING and no normalized exclude tag as a substring
(not the §4.2 whole-tag rule); for each selected event it counts every
normalized tag not itself in either query set; the result is the
first-seen-keyed counts sorted by descending count (stable, so ties keep
first-seen order) cut to `limit`; it is empty when no event is selected
(and also when both normalized query sets are empty). -/
theorem c7_cooccurrence_amended :
    ∀ (table : List TimelineEvent) (cats exc : List String) (lim : Nat),
      (¬(normalizeQueryTags cats = [] ∧ normalizeQueryTags exc = []) →
        get_cooccurring_categories table cats exc lim =
          (sortByCountDesc ((dedupFirstSeen []
              (cooccurContrib table (normalizeQueryTags cats) (normalizeQueryTags exc))).map
            fun k => (k, (cooccurContrib table (normalizeQueryTags cats)
              (normalizeQueryTags exc)).count k))).take lim) ∧
      ((get_cooccurring_categories table cats exc lim).Pairwise fun a b => b.2 ≤ a.2) ∧
      (get_cooccurring_categories table cats exc lim).length ≤ lim ∧
      (cooccurSelected table (normalizeQueryTags cats) (normalizeQueryTags exc) = [] →
        get_cooccurring_categories table cats exc lim = []) := by
  intro table cats exc lim
  refine ⟨?_, ?_, ?_, ?_⟩
  · intro hne
    simp only [get_cooccurring_categories]
    rw [if_neg hne]
    congr 1
    congr 1
    rw [foldl_bump_eq _ [] (by simp [mapKeys])]
    simp [mapKeys]
  · simp only [get_cooccurring_categories]
    split
    · simp
    · exact List.Pairwise.sublist (List.take_sublist _ _) (sortByCountDesc_sorted _)
  · simp only [get_cooccurring_categories]
    split
    · simp
    · rw [List.length_take]
      exact Nat.min_le_left _ _
  · intro hsel
    simp only [get_cooccurring_categories]
    split
    · rfl
    · rw [show cooccurContrib table (normalizeQueryTags cats) (normalizeQueryTags exc) = []
        from by rw [cooccurContrib, hsel]; rfl]
      simp [sortByCountDesc, stableSort]

/-- Witness for C7: the amended characterization at the `technology` table
and the empty-selection case at the empty table. -/
theorem c7_witness :
    get_cooccurring_categories [⟨2020, 1, 1, "x", "technology"⟩] ["tech"] [] 20 =
      (sortByCountDesc ((dedupFirstSeen []
          (cooccurContrib [⟨2020, 1, 1, "x", "technology"⟩] (normalizeQueryTags ["tech"])
            (normalizeQueryTags []))).map
        fun k => (k, (cooccurContrib [⟨2020, 1, 1, "x", "technology"⟩]
          (normalizeQueryTags ["tech"]) (normalizeQueryTags [])).count k))).take 20 ∧
    get_cooccurring_categories [] ["tech"] [] 20 = [] :=
  ⟨(c7_cooccurrence_amended [⟨2020, 1, 1, "x", "technology"⟩] ["tech"] [] 20).1 (by decide),
   (c7_cooccurrence_amended [] ["tech"] [] 20).2.2.2 (by decide)⟩

end DsnsBot
